import Mathlib

/-!
Verification of `dugu9sword/frequency`: a shallow embedding of
`allennlpx/predictors/predictor.py` (the ensembling / transform-aware
`Predictor`) and of `awesome_glue/task.py` (`Task.attack`, `Task.downsample`),
with proofs of the specification's testable properties.

Probabilities are modelled over `ℚ` (the Python code uses floats; all claims
here are about exact algebraic structure, so `ℚ` is the faithful idealisation).
Python dicts of strings are modelled as association lists.
-/

namespace Freq

/-- A JSON-like record (`JsonDict` whose values are strings), as an
association list in insertion order, modelling a Python `dict`. -/
abbrev Record := List (String × String)

/-- `d[k]` for a record: the value at the first binding of `k`
(`""` when the key is absent; Python would raise `KeyError` there,
a case no claim exercises). -/
def recGet : Record → String → String
  | [], _ => ""
  | (k, v) :: r, f => if k = f then v else recGet r f

/-- `d[k] = v` for a record: replace the first binding of `k`,
or append a new binding when the key is absent (Python dict insertion order). -/
def recSet : Record → String → String → Record
  | [], f, v => [(f, v)]
  | (k, w) :: r, f, v => if k = f then (f, v) :: r else (k, w) :: recSet r f v

/-- The result of calling a Python function on a list object: either the very
same object is returned (`same`), or a freshly allocated list holding the
given value (`fresh`).  This is exactly the distinction `id(x) == id(y)`
observes in `check_identity`. -/
inductive PyRes where
  | same : PyRes
  | fresh : List String → PyRes
deriving DecidableEq, Repr

/-- A Python `list[str] -> list[str]` function, with its allocation behaviour
made explicit so that object identity of the result is representable. -/
abbrev PyFn := List String → PyRes

/-- The value returned by calling `f` on `x` (collapsing object identity). -/
def pyApply (f : PyFn) (x : List String) : List String :=
  match f x with
  | .same => x
  | .fresh y => y

/-- The sentinel list used by `check_identity` in the source. -/
def identitySentinel : List String :=
  ["this method is used to check whether a function that ",
   "maps a list of string to another is an identity function ",
   "lambda x: x. The id of input should be equal to output "]

/-- `check_identity(fn)` from the source: `True` for `None`, otherwise apply
`fn` to the sentinel and test `id(x) == id(y)`, i.e. whether the same object
came back. -/
def check_identity : Option PyFn → Bool
  | none => true
  | some f =>
    match f identitySentinel with
    | .same => true
    | .fresh _ => false

/-- The configuration state of a `Predictor` (the fields of
`Predictor.__init__` that the claims touch). -/
structure PredState where
  max_batch_forward : ℕ := 512
  ensemble_num : ℕ := 1
  transform_fn : Option PyFn := none
  transform_field : String := "sent"
  ensemble_p : ℕ := 3

/-- `set_transform_fn`: install the function only when `check_identity`
says it is not the identity; otherwise leave the state unchanged. -/
def set_transform_fn (P : PredState) (fn : Option PyFn) : PredState :=
  if check_identity fn then P else { P with transform_fn := fn }

/-- Maximum of a list of rationals (`torch.max` over a row; the source only
applies it to non-empty probability rows, `0` is the value on `[]`). -/
def maxD : List ℚ → ℚ
  | [] => 0
  | x :: xs => xs.foldl max x

/-- One row of `delta` in `_weighted_average`:
`(max_prob - prob) ** p`, entrywise. -/
def deltaRow (p : ℕ) (row : List ℚ) : List ℚ :=
  row.map (fun x => (maxD row - x) ^ p)

/-- The raw (unnormalised) weight of one replica:
`((max_prob - prob) ** p).sum(dim=1)` for its row. -/
def deltaSum (p : ℕ) (row : List ℚ) : ℚ :=
  (deltaRow p row).sum

/-- The normalising denominator `delta.sum()` across replicas. -/
def weightDenom (p : ℕ) (rows : List (List ℚ)) : ℚ :=
  (rows.map (deltaSum p)).sum

/-- The normalised weight a replica's row receives (`delta / delta.sum()`).
Rational division by `0` yields `0`; in the source the same division on an
all-zero `delta` yields `NaN` (see the safety theorem on `weightDenom`). -/
def replicaWeight (p : ℕ) (rows : List (List ℚ)) (row : List ℚ) : ℚ :=
  deltaSum p row / weightDenom p rows

/-- `_weighted_average(probs_to_ensemble)`: the weight vector matrix-multiplied
with the stacked probability rows (`delta @ probs_to_ensemble`). -/
def weighted_average (p : ℕ) (rows : List (List ℚ)) : List ℚ :=
  (List.range (rows.headD []).length).map
    (fun j => (rows.map (fun r => replicaWeight p rows r * r.getD j 0)).sum)

/-- Unweighted arithmetic mean of the rows (`probs_to_ensemble.mean(dim=0)`). -/
def meanRows (rows : List (List ℚ)) : List ℚ :=
  (List.range (rows.headD []).length).map
    (fun j => (rows.map (fun r => r.getD j 0)).sum / rows.length)

/-- Successive chunks of size `g` (fuel-driven so the recursion is simple);
`chunkAux g fuel l` chunks `l` as long as fuel remains. -/
def chunkAux (g : ℕ) : ℕ → List Record → List (List Record)
  | 0, _ => []
  | _ + 1, [] => []
  | fuel + 1, l => l.take g :: chunkAux g fuel (l.drop g)

/-- `lazy_groups_of(iterator, g)`: successive groups of at most `g` records.
For `g = 0` the AllenNLP implementation immediately hits its empty-sentinel
and yields nothing. -/
def groupsOf (g : ℕ) (l : List Record) : List (List Record) :=
  if g = 0 then [] else chunkAux g l.length l

/-- The write-back loop `for i in range(bsz): b_en_jsons[i][field] = tf_out[i]`:
only the first `bsz` records receive a transformed value. -/
def writeBack (field : String) : ℕ → List String → List Record → List Record
  | 0, _, rs => rs
  | _ + 1, _, [] => []
  | _ + 1, [], rs => rs
  | n + 1, v :: vs, r :: rs => recSet r field v :: writeBack field n vs rs

/-- The replicated (batch × ensemble) record list for one group, after the
optional transform step, exactly as built inside `predict_batch_json`:
each record copied `ensemble_num` times, then — when a transform is
configured — the transform applied to the field values of the whole
replicated batch, but written back only to the first `bsz` records. -/
def replicatedBatch (P : PredState) (group : List Record) : List Record :=
  let bsz := group.length
  let b_en := (group.map (fun r => List.replicate P.ensemble_num r)).flatten
  match P.transform_fn with
  | none => b_en
  | some f =>
      let tf_in := b_en.map (fun r => recGet r P.transform_field)
      let tf_out := pyApply f tf_in
      writeBack P.transform_field bsz tf_out b_en

/-- The per-group body of `predict_batch_json`: run the model on the
replicated batch, then ensemble each record's `ensemble_num` consecutive
replica outputs with `_weighted_average`. -/
def predictGroup (P : PredState) (model : Record → List ℚ) (group : List Record) :
    List (List ℚ) :=
  let outputs := (replicatedBatch P group).map model
  (List.range group.length).map
    (fun bid => weighted_average P.ensemble_p
      ((outputs.drop (bid * P.ensemble_num)).take P.ensemble_num))

/-- `predict_batch_json`: split the input into groups of
`int(max_batch_forward / ensemble_num)` records, process each group, and
concatenate the results in order.  `model` abstracts
`forward_on_instances ∘ _batch_json_to_instances` (record ↦ probability
vector), an external collaborator. -/
def predict_batch_json (P : PredState) (model : Record → List ℚ)
    (json_dicts : List Record) : List (List ℚ) :=
  ((groupsOf (P.max_batch_forward / P.ensemble_num) json_dicts).map
    (predictGroup P model)).flatten

/-! ### `awesome_glue/task.py` -/

/-- First index attaining the maximum so far (`np.argmax` tail). -/
def argmaxAux : ℕ → ℚ → ℕ → List ℚ → ℕ
  | best, _, _, [] => best
  | best, bestv, i, y :: ys =>
      if bestv < y then argmaxAux i y (i + 1) ys else argmaxAux best bestv (i + 1) ys

/-- `np.argmax`: index of the first occurrence of the maximum
(`0` on the empty list, where NumPy would raise). -/
def argmaxIdx : List ℚ → ℕ
  | [] => 0
  | x :: xs => argmaxAux 0 x 1 xs

/-- Modelled from the spec: `AttackMetric` (defined in `awesome_glue/utils.py`,
which is not among the provided sources).  Spec §3: counters
`{succeed, fail, escape}` over a batch, mutated by sequential
`succeed()/fail()/escape()` calls. -/
structure AttackMetric where
  succeed : ℕ := 0
  fail : ℕ := 0
  escape : ℕ := 0
deriving DecidableEq, Repr

/-- The attacker as the attack loop sees it (`attacker.attack_from_json`):
for a raw record it produces a success flag and the adversarial token
sequence `result['adv']` (an external collaborator of `Task.attack`). -/
structure AttackResult where
  success : Bool
  advTokens : List String
deriving DecidableEq, Repr

/-- `allenutil.as_sentence`: join a token sequence into a sentence. -/
def asSentence (tokens : List String) : String :=
  String.intercalate " " tokens

/-- One line of the adversarial-example log:
`f"{raw_json[field]}\t{adv_json[field]}\t{raw_label}\n"` without the newline. -/
def logRow (raw adv : String) (label : ℕ) : String :=
  raw ++ "\t" ++ adv ++ "\t" ++ toString label

/-- What one pass of the attack loop accumulates: the metric counters, the
log lines written after the header, and the raw records for which
`attack_from_json` was actually invoked. -/
structure AttackRun where
  metric : AttackMetric := {}
  rows : List String := []
  attacked : List Record := []
deriving DecidableEq, Repr

/-- The body of `Task.attack`'s loop for the whole batch.  `predictorFn` is
`predictor.predict_json ∘ (record)` returning `['probs']`; `attacker` is
`attack_from_json`; `field` is `field_to_change`; each instance is a record
paired with its gold label index.  The adversarial row is written for every
instance (inside the loop, after the branch), with `adv_json = raw_json.copy()`
left untouched on the escape branch. -/
def attackLoop (predictorFn : Record → List ℚ) (attacker : Record → AttackResult)
    (field : String) : List (Record × ℕ) → AttackRun
  | [] => {}
  | (raw_json, raw_label) :: rest =>
      let raw_pred := argmaxIdx (predictorFn raw_json)
      let step : AttackRun :=
        if raw_pred = raw_label then
          let result := attacker raw_json
          let adv_json := recSet raw_json field (asSentence result.advTokens)
          { metric := if result.success then { succeed := 1 } else { fail := 1 },
            rows := [logRow (recGet raw_json field) (recGet adv_json field) raw_label],
            attacked := [raw_json] }
        else
          { metric := { escape := 1 },
            rows := [logRow (recGet raw_json field) (recGet raw_json field) raw_label],
            attacked := [] }
      let tail := attackLoop predictorFn attacker field rest
      { metric := { succeed := step.metric.succeed + tail.metric.succeed,
                    fail := step.metric.fail + tail.metric.fail,
                    escape := step.metric.escape + tail.metric.escape },
        rows := step.rows ++ tail.rows,
        attacked := step.attacked ++ tail.attacked }

/-- The full content of the adversarial log file as its list of lines:
the header `"raw\tadv\tlabel"` followed by one row per loop iteration
(written only when `attack_gen_adv` is set). -/
def advLogLines (predictorFn : Record → List ℚ) (attacker : Record → AttackResult)
    (field : String) (data : List (Record × ℕ)) : List String :=
  "raw\tadv\tlabel" :: (attackLoop predictorFn attacker field data).rows

/-! ### `Task.downsample` -/

/-- An instance as `downsample` sees it: its optional `sent` and `sent2`
token fields (only the token sequences matter here). -/
structure AInst where
  sent : Option (List String) := none
  sent2 : Option (List String) := none
deriving DecidableEq, Repr

/-- `'sent' in data_down[0].fields`: the main field is `sent` when the first
instance has it, else `sent2`. -/
def mainFieldIsSent (l : List AInst) : Bool :=
  (l.headD {}).sent.isSome

/-- The token sequence of the main text field of an instance. -/
def mainTokens (isSent : Bool) (x : AInst) : List String :=
  if isSent then x.sent.getD [] else x.sent2.getD []

/-- `downsample`'s configuration: the optional seeded shuffle
(`data_random`, with the permutation indices `np.random.permutation`
produced under the fixed seed), and the shard slice
(`data_downsample = -1` modelled as `none`). -/
structure DownCfg where
  data_random : Bool := false
  perm : List ℕ := []
  data_downsample : Option ℕ := none
  data_shard : ℕ := 0

/-- `Task.downsample` on the selected split: filter to instances whose main
field has fewer than 300 tokens, then optionally reorder by the seeded
permutation, then slice the shard `[start : start + data_downsample]`. -/
def downsample (cfg : DownCfg) (data : List AInst) : List AInst :=
  let isSent := mainFieldIsSent data
  let filtered := data.filter (fun x => (mainTokens isSent x).length < 300)
  let shuffled :=
    if cfg.data_random then cfg.perm.map (fun i => filtered.getD i {}) else filtered
  match cfg.data_downsample with
  | none => shuffled
  | some n => (shuffled.drop (cfg.data_shard * n)).take n

/-! ### Helper lemmas -/

lemma deltaSum_zero (r : List ℚ) : deltaSum 0 r = r.length := by
  simp only [deltaSum, deltaRow, pow_zero]
  induction r with
  | nil => simp
  | cons a l ih => simp [ih]; ring

lemma sum_map_mul_left {α : Type} (l : List α) (f : α → ℚ) (c : ℚ) :
    (l.map (fun x => c * f x)).sum = c * (l.map f).sum := by
  induction l with
  | nil => simp
  | cons a l ih => simp [ih]; ring

lemma weightDenom_zero (rows : List (List ℚ)) (C : ℕ)
    (hlen : ∀ r ∈ rows, r.length = C) :
    weightDenom 0 rows = rows.length * C := by
  unfold weightDenom
  induction rows with
  | nil => simp
  | cons a l ih =>
      have ha := hlen a (by simp)
      have ih' := ih (fun r hr => hlen r (by simp [hr]))
      simp only [List.map_cons, List.sum_cons, ih', deltaSum_zero, ha,
        List.length_cons]
      push_cast
      ring

/-- C2: for `ensemble_p = 0`, `_weighted_average` over a non-empty list of
equal-length probability vectors is their unweighted arithmetic mean
(exactly, hence within any floating tolerance). -/
theorem ensemble_mean_at_p_zero (rows : List (List ℚ)) (hne : rows ≠ [])
    (hlen : ∀ r ∈ rows, r.length = (rows.headD []).length) :
    weighted_average 0 rows = meanRows rows := by
  unfold weighted_average meanRows
  apply List.map_congr_left
  intro j hj
  rw [List.mem_range] at hj
  have hC : ((rows.headD []).length : ℚ) ≠ 0 :=
    Nat.cast_ne_zero.mpr (Nat.lt_of_le_of_lt (Nat.zero_le j) hj).ne'
  have hk : ((rows.length : ℚ)) ≠ 0 :=
    Nat.cast_ne_zero.mpr (List.length_pos.mpr hne).ne'
  have hmap : rows.map (fun r => replicaWeight 0 rows r * r.getD j 0)
      = rows.map (fun r => (1 / rows.length : ℚ) * r.getD j 0) := by
    apply List.map_congr_left
    intro r hr
    have hw : replicaWeight 0 rows r = 1 / rows.length := by
      unfold replicaWeight
      rw [deltaSum_zero, weightDenom_zero rows (rows.headD []).length hlen,
        hlen r hr, mul_comm, div_mul_eq_div_div, div_self hC, one_div]
    rw [hw]
  rw [hmap, sum_map_mul_left rows (fun r => r.getD j 0) (1 / rows.length),
    one_div_mul_eq_div]

/-- Witness for C2 at the concrete call
`_weighted_average([[1/4, 3/4], [1/2, 1/2]])` with `p = 0`. -/
theorem ensemble_mean_at_p_zero_witness :
    ([[(1 : ℚ)/4, 3/4], [1/2, 1/2]] : List (List ℚ)) ≠ []
    ∧ (∀ r ∈ ([[(1 : ℚ)/4, 3/4], [1/2, 1/2]] : List (List ℚ)),
        r.length = (([[(1 : ℚ)/4, 3/4], [1/2, 1/2]] : List (List ℚ)).headD []).length)
    ∧ weighted_average 0 [[(1 : ℚ)/4, 3/4], [1/2, 1/2]]
        = meanRows [[(1 : ℚ)/4, 3/4], [1/2, 1/2]] :=
  ⟨by decide, by decide,
    ensemble_mean_at_p_zero [[(1 : ℚ)/4, 3/4], [1/2, 1/2]] (by decide) (by decide)⟩

/-! ### Maximum of a row -/

lemma le_foldl_max (a : ℚ) (l : List ℚ) : a ≤ l.foldl max a := by
  induction l generalizing a with
  | nil => exact le_rfl
  | cons b l ih => exact le_trans (le_max_left a b) (ih (max a b))

lemma mem_le_foldl_max (y : ℚ) (l : List ℚ) (hy : y ∈ l) :
    ∀ a, y ≤ l.foldl max a := by
  induction hy with
  | head l => exact fun a => le_trans (le_max_right a y) (le_foldl_max _ l)
  | tail b _ ih => exact fun a => ih (max a b)

lemma mem_le_maxD (y : ℚ) (l : List ℚ) (hy : y ∈ l) : y ≤ maxD l := by
  cases l with
  | nil => cases hy
  | cons x xs =>
      rcases List.mem_cons.mp hy with h | h
      · exact h ▸ le_foldl_max x xs
      · exact mem_le_foldl_max y xs h x

lemma getD_le_maxD (l : List ℚ) (j : ℕ) (h : j < l.length) :
    l.getD j 0 ≤ maxD l := by
  rw [List.getD_eq_getElem l 0 h]
  exact mem_le_maxD _ l (List.getElem_mem h)

/-! ### Sums over index ranges -/

lemma sum_map_eq_range (l : List ℚ) (f : ℚ → ℚ) :
    (l.map f).sum = ((List.range l.length).map (fun j => f (l.getD j 0))).sum := by
  induction l with
  | nil => rfl
  | cons a l ih =>
      rw [List.map_cons, List.sum_cons, List.length_cons,
        List.range_succ_eq_map, List.map_cons, List.sum_cons, List.map_map]
      simp only [List.getD_cons_zero, Function.comp_def, List.getD_cons_succ]
      rw [ih]

lemma range_map_sum (n : ℕ) (f : ℕ → ℚ) :
    ((List.range n).map f).sum = ∑ j ∈ Finset.range n, f j := by
  induction n with
  | zero => rfl
  | succ n ih =>
      rw [List.range_succ, List.map_append, List.sum_append,
        Finset.sum_range_succ, ih]
      simp

/-! ### C3: peaked rows receive strictly larger weights -/

lemma deltaSum_nonneg (p : ℕ) (r : List ℚ) : 0 ≤ deltaSum p r := by
  apply List.sum_nonneg
  intro x hx
  rcases List.mem_map.mp hx with ⟨y, hy, rfl⟩
  exact pow_nonneg (sub_nonneg.mpr (mem_le_maxD y r hy)) p

lemma weightDenom_nonneg (p : ℕ) (rows : List (List ℚ)) : 0 ≤ weightDenom p rows := by
  apply List.sum_nonneg
  intro x hx
  rcases List.mem_map.mp hx with ⟨r, _, rfl⟩
  exact deltaSum_nonneg p r

lemma deltaSum_le_weightDenom (p : ℕ) (rows : List (List ℚ)) (r : List ℚ)
    (hr : r ∈ rows) : deltaSum p r ≤ weightDenom p rows := by
  apply List.single_le_sum
  · intro x hx
    rcases List.mem_map.mp hx with ⟨s, _, rfl⟩
    exact deltaSum_nonneg p s
  · exact List.mem_map_of_mem _ hr

/-- C3: for `ensemble_p ≥ 1`, within one `_weighted_average` call, a row
whose gaps `max − entry` dominate another row's gaps entrywise (strictly at
some coordinate) receives a strictly greater normalised combination weight. -/
theorem ensemble_weight_monotone (p : ℕ) (hp : 1 ≤ p) (rows : List (List ℚ))
    (u v : List ℚ) (hu : u ∈ rows) (_hv : v ∈ rows)
    (hlen : v.length = u.length)
    (hge : ∀ j, j < u.length → maxD v - v.getD j 0 ≤ maxD u - u.getD j 0)
    (hstrict : ∃ j, j < u.length ∧ maxD v - v.getD j 0 < maxD u - u.getD j 0) :
    replicaWeight p rows v < replicaWeight p rows u := by
  have hsum : deltaSum p v < deltaSum p u := by
    unfold deltaSum deltaRow
    rw [sum_map_eq_range, sum_map_eq_range, hlen, range_map_sum, range_map_sum]
    apply Finset.sum_lt_sum
    · intro j hj
      rw [Finset.mem_range] at hj
      have h0 : 0 ≤ maxD v - v.getD j 0 :=
        sub_nonneg.mpr (getD_le_maxD v j (hlen ▸ hj))
      exact pow_le_pow_left₀ h0 (hge j hj) p
    · rcases hstrict with ⟨j, hj, hlt⟩
      refine ⟨j, Finset.mem_range.mpr hj, ?_⟩
      have h0 : 0 ≤ maxD v - v.getD j 0 :=
        sub_nonneg.mpr (getD_le_maxD v j (hlen ▸ hj))
      exact pow_lt_pow_left₀ hlt h0 (Nat.one_le_iff_ne_zero.mp hp)
  have hupos : 0 < deltaSum p u := lt_of_le_of_lt (deltaSum_nonneg p v) hsum
  have hdenom : 0 < weightDenom p rows :=
    lt_of_lt_of_le hupos (deltaSum_le_weightDenom p rows u hu)
  unfold replicaWeight
  exact div_lt_div_of_pos_right hsum hdenom

/-- Witness for C3: with `p = 3`, the peaked row `[9/10, 1/10]` outweighs
the flat row `[6/10, 4/10]` in the same call. -/
theorem ensemble_weight_monotone_witness :
    1 ≤ 3
    ∧ ([9/10, 1/10] : List ℚ) ∈ ([[9/10, 1/10], [6/10, 4/10]] : List (List ℚ))
    ∧ ([6/10, 4/10] : List ℚ) ∈ ([[9/10, 1/10], [6/10, 4/10]] : List (List ℚ))
    ∧ ([6/10, 4/10] : List ℚ).length = ([9/10, 1/10] : List ℚ).length
    ∧ (∀ j, j < ([9/10, 1/10] : List ℚ).length →
        maxD [6/10, 4/10] - ([6/10, 4/10] : List ℚ).getD j 0
          ≤ maxD [9/10, 1/10] - ([9/10, 1/10] : List ℚ).getD j 0)
    ∧ (∃ j, j < ([9/10, 1/10] : List ℚ).length ∧
        maxD [6/10, 4/10] - ([6/10, 4/10] : List ℚ).getD j 0
          < maxD [9/10, 1/10] - ([9/10, 1/10] : List ℚ).getD j 0)
    ∧ replicaWeight 3 [[9/10, 1/10], [6/10, 4/10]] [6/10, 4/10]
        < replicaWeight 3 [[9/10, 1/10], [6/10, 4/10]] [9/10, 1/10] := by
  have hball : ∀ j, j < ([9/10, 1/10] : List ℚ).length →
      maxD [6/10, 4/10] - ([6/10, 4/10] : List ℚ).getD j 0
        ≤ maxD [9/10, 1/10] - ([9/10, 1/10] : List ℚ).getD j 0 := by
    intro j hj
    simp only [List.length_cons, List.length_nil] at hj
    interval_cases j <;> norm_num [maxD, max_def]
  have hex : ∃ j, j < ([9/10, 1/10] : List ℚ).length ∧
      maxD [6/10, 4/10] - ([6/10, 4/10] : List ℚ).getD j 0
        < maxD [9/10, 1/10] - ([9/10, 1/10] : List ℚ).getD j 0 :=
    ⟨1, by norm_num, by norm_num [maxD, max_def]⟩
  exact ⟨by norm_num, by simp, by simp, by simp, hball, hex,
    ensemble_weight_monotone 3 (by norm_num) _ _ _ (by simp) (by simp)
      (by simp) hball hex⟩

/-! ### C9: the normalisation is safe iff some replica is non-uniform -/

lemma sum_eq_zero_of_nonneg (l : List ℚ) (h : ∀ x ∈ l, 0 ≤ x) (hs : l.sum = 0) :
    ∀ x ∈ l, x = 0 := by
  induction l with
  | nil => intro x hx; cases hx
  | cons a l ih =>
      rw [List.sum_cons] at hs
      have ha : 0 ≤ a := h a (by simp)
      have hl : 0 ≤ l.sum := List.sum_nonneg (fun x hx => h x (by simp [hx]))
      have ha0 : a = 0 := by linarith
      intro x hx
      rcases List.mem_cons.mp hx with rfl | hx
      · exact ha0
      · exact ih (fun y hy => h y (by simp [hy])) (by linarith) x hx

lemma sum_of_all_eq (l : List ℚ) (c : ℚ) (h : ∀ x ∈ l, x = c) :
    l.sum = l.length * c := by
  induction l with
  | nil => simp
  | cons a l ih =>
      have := h a (by simp)
      rw [List.sum_cons, ih (fun x hx => h x (by simp [hx])), this,
        List.length_cons]
      push_cast
      ring

lemma foldl_max_const (c : ℚ) (l : List ℚ) (h : ∀ x ∈ l, x = c) :
    l.foldl max c = c := by
  induction l with
  | nil => rfl
  | cons b l ih =>
      have hb : b = c := h b (by simp)
      rw [List.foldl_cons, hb, max_self]
      exact ih (fun x hx => h x (by simp [hx]))

lemma maxD_of_all_eq (l : List ℚ) (c : ℚ) (hne : l ≠ []) (h : ∀ x ∈ l, x = c) :
    maxD l = c := by
  cases l with
  | nil => exact absurd rfl hne
  | cons x xs =>
      have hx : x = c := h x (by simp)
      rw [maxD, hx]
      exact foldl_max_const c xs (fun y hy => h y (by simp [hy]))

/-- C9: for `ensemble_p ≥ 1` and probability rows (each summing to `1`),
the normalising denominator `delta.sum()` vanishes exactly when every row
is the uniform distribution — there the unguarded division is over `0`
(`NaN` in the source) — and whenever it does not vanish the normalised
replica weights sum to `1`. -/
theorem ensemble_weights_safety (p : ℕ) (hp : 1 ≤ p) (rows : List (List ℚ))
    (hprob : ∀ r ∈ rows, r.sum = 1) :
    (weightDenom p rows = 0 ↔ ∀ r ∈ rows, ∀ x ∈ r, x = 1 / r.length)
    ∧ (weightDenom p rows ≠ 0 → (rows.map (replicaWeight p rows)).sum = 1) := by
  have hp0 : p ≠ 0 := Nat.one_le_iff_ne_zero.mp hp
  constructor
  · constructor
    · intro h0 r hr x hx
      have hzero : ∀ y ∈ rows.map (deltaSum p), y = 0 :=
        sum_eq_zero_of_nonneg _
          (fun y hy => by
            rcases List.mem_map.mp hy with ⟨s, _, rfl⟩
            exact deltaSum_nonneg p s)
          h0
      have hds : deltaSum p r = 0 := hzero _ (List.mem_map_of_mem _ hr)
      have hall : ∀ y ∈ r, y = maxD r := by
        intro y hy
        have hy0 : (maxD r - y) ^ p = 0 := by
          refine sum_eq_zero_of_nonneg (deltaRow p r) ?_ hds _ ?_
          · intro z hz
            rcases List.mem_map.mp hz with ⟨w, hw, rfl⟩
            exact pow_nonneg (sub_nonneg.mpr (mem_le_maxD w r hw)) p
          · exact List.mem_map_of_mem _ hy
        have := pow_eq_zero_iff hp0 |>.mp hy0
        linarith [sub_eq_zero.mp this]
      have hne : r ≠ [] := by
        intro hc
        subst hc
        simpa using hprob [] hr
      have hlen : (r.length : ℚ) ≠ 0 :=
        Nat.cast_ne_zero.mpr (List.length_pos.mpr hne).ne'
      have hsum : (r.length : ℚ) * maxD r = 1 := by
        rw [← sum_of_all_eq r (maxD r) hall, hprob r hr]
      have hmax : maxD r = 1 / r.length := by
        field_simp
        linear_combination hsum
      rw [hall x hx, hmax]
    · intro h
      apply List.sum_eq_zero
      intro y hy
      rcases List.mem_map.mp hy with ⟨r, hr, rfl⟩
      apply List.sum_eq_zero
      intro z hz
      rcases List.mem_map.mp hz with ⟨w, hw, rfl⟩
      have hne : r ≠ [] := by
        intro hc; rw [hc] at hw; cases hw
      have hmax : maxD r = 1 / r.length :=
        maxD_of_all_eq r _ hne (h r hr)
      rw [hmax, h r hr w hw, sub_self]
      exact zero_pow hp0
  · intro hd
    have : rows.map (replicaWeight p rows)
        = rows.map (fun r => (weightDenom p rows)⁻¹ * deltaSum p r) := by
      apply List.map_congr_left
      intro r _
      rw [replicaWeight, div_eq_mul_inv, mul_comm]
    rw [this, sum_map_mul_left rows (deltaSum p) (weightDenom p rows)⁻¹]
    exact inv_mul_cancel₀ hd

/-- Witness for C9 at `p = 3` on the rows `[[1/2, 1/2], [3/4, 1/4]]`. -/
theorem ensemble_weights_safety_witness :
    1 ≤ 3
    ∧ (∀ r ∈ ([[1/2, 1/2], [3/4, 1/4]] : List (List ℚ)), r.sum = 1)
    ∧ ((weightDenom 3 [[1/2, 1/2], [3/4, 1/4]] = 0
          ↔ ∀ r ∈ ([[1/2, 1/2], [3/4, 1/4]] : List (List ℚ)),
              ∀ x ∈ r, x = 1 / r.length)
        ∧ (weightDenom 3 [[1/2, 1/2], [3/4, 1/4]] ≠ 0 →
            (([[1/2, 1/2], [3/4, 1/4]] : List (List ℚ)).map
              (replicaWeight 3 [[1/2, 1/2], [3/4, 1/4]])).sum = 1)) := by
  have hprob : ∀ r ∈ ([[1/2, 1/2], [3/4, 1/4]] : List (List ℚ)), r.sum = 1 := by
    intro r hr
    rcases List.mem_cons.mp hr with rfl | hr
    · norm_num
    · rcases List.mem_cons.mp hr with rfl | hr
      · norm_num
      · cases hr
  exact ⟨by norm_num, hprob,
    ensemble_weights_safety 3 (by norm_num) [[1/2, 1/2], [3/4, 1/4]] hprob⟩

/-! ### C4: the identity check is object identity, not value equality -/

/-- C4: on a predictor with no transform configured, `set_transform_fn`
leaves no transform configured exactly when the function returns the very
same object on the sentinel; a function returning a value-equal but freshly
allocated list — even the sentinel's own value — is installed as a
transform. -/
theorem set_transform_fn_object_identity (P : PredState)
    (hP : P.transform_fn = none) (f : PyFn) :
    ((set_transform_fn P (some f)).transform_fn = none
      ↔ f identitySentinel = .same)
    ∧ (∀ v, f identitySentinel = .fresh v →
        (set_transform_fn P (some f)).transform_fn = some f) := by
  unfold set_transform_fn check_identity
  constructor
  · cases hres : f identitySentinel with
    | same => simp [hres, hP]
    | fresh v => simp [hres]
  · intro v hres
    simp [hres]

/-- Witness for C4: `fun x => fresh x` returns a value-equal but distinct
object, so it is installed even though it is the identity on values. -/
theorem set_transform_fn_object_identity_witness :
    ({} : PredState).transform_fn = none
    ∧ (((set_transform_fn {} (some (fun x => .fresh x))).transform_fn = none
        ↔ (fun x => PyRes.fresh x) identitySentinel = .same)
      ∧ (∀ v, (fun x => PyRes.fresh x) identitySentinel = .fresh v →
          (set_transform_fn {} (some (fun x => .fresh x))).transform_fn
            = some (fun x => .fresh x))) :=
  ⟨rfl, set_transform_fn_object_identity {} rfl (fun x => .fresh x)⟩

/-! ### C5: a value-level identity transform changes no prediction -/

lemma recSet_get (r : Record) (f : String) (h : f ∈ r.map Prod.fst) :
    recSet r f (recGet r f) = r := by
  induction r with
  | nil => cases h
  | cons kv r ih =>
      obtain ⟨k, w⟩ := kv
      by_cases hk : k = f
      · subst hk
        simp [recSet, recGet]
      · have h' : f ∈ r.map Prod.fst := by
          rcases List.mem_cons.mp h with h | h
          · exact absurd h.symm hk
          · exact h
        simp [recSet, recGet, hk, ih h']

lemma writeBack_self (field : String) (n : ℕ) (rs : List Record)
    (h : ∀ r ∈ rs, field ∈ r.map Prod.fst) :
    writeBack field n (rs.map (fun r => recGet r field)) rs = rs := by
  induction rs generalizing n with
  | nil => cases n <;> rfl
  | cons r rs ih =>
      cases n with
      | zero => rfl
      | succ n =>
          rw [List.map_cons, writeBack,
            recSet_get r field (h r (by simp)),
            ih n (fun s hs => h s (by simp [hs]))]

lemma mem_chunkAux (g fuel : ℕ) (l : List Record) (c : List Record)
    (hc : c ∈ chunkAux g fuel l) : ∀ x ∈ c, x ∈ l := by
  induction fuel generalizing l with
  | zero => cases hc
  | succ fuel ih =>
      cases l with
      | nil => cases hc
      | cons a l =>
          rcases List.mem_cons.mp hc with rfl | hc
          · exact fun x hx => List.mem_of_mem_take hx
          · exact fun x hx =>
              List.mem_of_mem_drop (ih (List.drop g (a :: l)) hc x hx)

lemma mem_groupsOf (g : ℕ) (l : List Record) (c : List Record)
    (hc : c ∈ groupsOf g l) : ∀ x ∈ c, x ∈ l := by
  unfold groupsOf at hc
  by_cases hg : g = 0
  · rw [if_pos hg] at hc; cases hc
  · rw [if_neg hg] at hc; exact mem_chunkAux g l.length l c hc

lemma replicatedBatch_identity (P : PredState) (f : PyFn)
    (hid : ∀ x, pyApply f x = x) (group : List Record)
    (hfield : ∀ r ∈ group, P.transform_field ∈ r.map Prod.fst) :
    replicatedBatch { P with transform_fn := some f } group
      = replicatedBatch { P with transform_fn := none } group := by
  unfold replicatedBatch
  simp only [hid]
  apply writeBack_self
  intro r hr
  rcases List.mem_flatten.mp hr with ⟨c, hc, hrc⟩
  rcases List.mem_map.mp hc with ⟨s, hs, rfl⟩
  exact (List.eq_of_mem_replicate hrc) ▸ hfield s hs

/-- C5: if `transform_fn` is the identity on values (its output equals its
input element-wise), then for every batch whose records carry the transform
field, `predict_batch_json` returns exactly the same outputs whether that
function was passed to `set_transform_fn` or no transform was ever
configured. -/
theorem identity_transform_no_op (P : PredState) (hP : P.transform_fn = none)
    (f : PyFn) (hid : ∀ x, pyApply f x = x)
    (model : Record → List ℚ) (l : List Record)
    (hfield : ∀ r ∈ l, P.transform_field ∈ r.map Prod.fst) :
    predict_batch_json (set_transform_fn P (some f)) model l
      = predict_batch_json P model l := by
  unfold set_transform_fn
  by_cases hchk : check_identity (some f)
  · rw [if_pos hchk]
  · rw [if_neg hchk]
    unfold predict_batch_json
    apply congrArg
    apply List.map_congr_left
    intro group hg
    unfold predictGroup
    have hone : P = { P with transform_fn := none } := by
      cases P
      simp_all
    rw [show replicatedBatch { P with transform_fn := some f } group
          = replicatedBatch P group from by
        rw [replicatedBatch_identity P f hid group
          (fun r hr => hfield r (mem_groupsOf _ l group hg r hr)), ← hone]]

/-- Witness for C5: the fresh-copy identity `fun x => fresh x` on a
one-record batch. -/
theorem identity_transform_no_op_witness :
    ({} : PredState).transform_fn = none
    ∧ (∀ x, pyApply (fun x => .fresh x) x = x)
    ∧ (∀ r ∈ ([[("sent", "good movie")]] : List Record),
        ({} : PredState).transform_field ∈ r.map Prod.fst)
    ∧ predict_batch_json (set_transform_fn {} (some (fun x => .fresh x)))
        (fun _ => [1/2, 1/2]) [[("sent", "good movie")]]
      = predict_batch_json {} (fun _ => [1/2, 1/2]) [[("sent", "good movie")]] :=
  ⟨rfl, fun x => rfl, by decide,
    identity_transform_no_op {} rfl (fun x => .fresh x) (fun x => rfl)
      (fun _ => [1/2, 1/2]) [[("sent", "good movie")]] (by decide)⟩

/-! ### C6: batch splitting bounds and order preservation -/

lemma chunkAux_flatten (g : ℕ) (hg : 1 ≤ g) (fuel : ℕ) (l : List Record)
    (hfuel : l.length ≤ fuel) : (chunkAux g fuel l).flatten = l := by
  induction fuel generalizing l with
  | zero =>
      have : l = [] := List.length_eq_zero.mp (Nat.le_zero.mp hfuel)
      subst this; rfl
  | succ fuel ih =>
      cases l with
      | nil => rfl
      | cons a l =>
          rw [chunkAux, List.flatten_cons, ih (List.drop g (a :: l))
            (by
              rw [List.length_drop]
              have := List.length_cons a l ▸ hfuel
              omega),
            List.take_append_drop]
          simp

lemma groupsOf_flatten (g : ℕ) (hg : 1 ≤ g) (l : List Record) :
    (groupsOf g l).flatten = l := by
  unfold groupsOf
  rw [if_neg (Nat.one_le_iff_ne_zero.mp hg)]
  exact chunkAux_flatten g hg l.length l le_rfl

lemma chunkAux_length_le (g fuel : ℕ) (l : List Record) (c : List Record)
    (hc : c ∈ chunkAux g fuel l) : c.length ≤ g := by
  induction fuel generalizing l with
  | zero => cases hc
  | succ fuel ih =>
      cases l with
      | nil => cases hc
      | cons a l =>
          rcases List.mem_cons.mp hc with rfl | hc
          · rw [List.length_take]; exact min_le_left _ _
          · exact ih (List.drop g (a :: l)) hc

lemma predictGroup_length (P : PredState) (model : Record → List ℚ)
    (c : List Record) : (predictGroup P model c).length = c.length := by
  simp [predictGroup]

/-- C6: with `1 ≤ ensemble_num ≤ max_batch_forward`, `predict_batch_json`
splits the input into successive groups of at most
`max_batch_forward / ensemble_num` records — so one forward pass handles at
most `max_batch_forward` replicated instances — the groups concatenate back
to the input in order, each group yields one output per record, and the
overall result has one output per input record. -/
theorem predict_batch_grouping (P : PredState) (model : Record → List ℚ)
    (l : List Record) (h1 : 1 ≤ P.ensemble_num)
    (h2 : P.ensemble_num ≤ P.max_batch_forward) :
    (∀ c ∈ groupsOf (P.max_batch_forward / P.ensemble_num) l,
        c.length * P.ensemble_num ≤ P.max_batch_forward)
    ∧ (groupsOf (P.max_batch_forward / P.ensemble_num) l).flatten = l
    ∧ (∀ c ∈ groupsOf (P.max_batch_forward / P.ensemble_num) l,
        (predictGroup P model c).length = c.length)
    ∧ predict_batch_json P model l
        = ((groupsOf (P.max_batch_forward / P.ensemble_num) l).map
            (predictGroup P model)).flatten
    ∧ (predict_batch_json P model l).length = l.length := by
  have hg : 1 ≤ P.max_batch_forward / P.ensemble_num :=
    (Nat.one_le_div_iff (Nat.lt_of_lt_of_le Nat.zero_lt_one h1)).mpr h2
  have hflat := groupsOf_flatten _ hg l
  refine ⟨?_, hflat, fun c _ => predictGroup_length P model c, rfl, ?_⟩
  · intro c hc
    have hcg : c.length ≤ P.max_batch_forward / P.ensemble_num := by
      unfold groupsOf at hc
      rw [if_neg (Nat.one_le_iff_ne_zero.mp hg)] at hc
      exact chunkAux_length_le _ _ _ c hc
    calc c.length * P.ensemble_num
        ≤ (P.max_batch_forward / P.ensemble_num) * P.ensemble_num :=
          Nat.mul_le_mul_right _ hcg
      _ ≤ P.max_batch_forward := Nat.div_mul_le_self _ _
  · unfold predict_batch_json
    rw [List.length_flatten, List.map_map]
    have : (groupsOf (P.max_batch_forward / P.ensemble_num) l).map
          (List.length ∘ predictGroup P model)
        = (groupsOf (P.max_batch_forward / P.ensemble_num) l).map List.length :=
      List.map_congr_left (fun c _ => predictGroup_length P model c)
    rw [this, ← List.length_flatten, hflat]

/-- Witness for C6 on a two-record batch with the default state
(`ensemble_num = 1`, `max_batch_forward = 512`). -/
theorem predict_batch_grouping_witness :
    1 ≤ ({} : PredState).ensemble_num
    ∧ ({} : PredState).ensemble_num ≤ ({} : PredState).max_batch_forward
    ∧ (predict_batch_json {} (fun _ => [1, 0])
        [[("sent", "a")], [("sent", "b")]]).length
      = ([[("sent", "a")], [("sent", "b")]] : List Record).length :=
  ⟨by decide, by decide,
    (predict_batch_grouping {} (fun _ => [1, 0]) [[("sent", "a")], [("sent", "b")]]
      (by decide) (by decide)).2.2.2.2⟩

/-! ### C7: escapes are exactly the initially-misclassified instances -/

/-- C7: over any batch, the instances on which `attack_from_json` is invoked
are exactly (and in order) those whose initial arg-max prediction equals the
gold label; every other instance is counted as `escape` on the metric, and
the attacked ones are counted as `succeed` or `fail`. -/
theorem attack_skip_correctness (pf : Record → List ℚ)
    (atk : Record → AttackResult) (field : String) (data : List (Record × ℕ)) :
    (attackLoop pf atk field data).attacked
      = (data.filter (fun inst => argmaxIdx (pf inst.1) == inst.2)).map Prod.fst
    ∧ (attackLoop pf atk field data).metric.escape
      = (data.filter (fun inst => !(argmaxIdx (pf inst.1) == inst.2))).length
    ∧ (attackLoop pf atk field data).metric.succeed
        + (attackLoop pf atk field data).metric.fail
      = (data.filter (fun inst => argmaxIdx (pf inst.1) == inst.2)).length := by
  induction data with
  | nil => exact ⟨rfl, rfl, rfl⟩
  | cons inst rest ih =>
      obtain ⟨r, lab⟩ := inst
      obtain ⟨ih1, ih2, ih3⟩ := ih
      by_cases h : argmaxIdx (pf r) = lab
      · cases hs : (atk r).success <;>
          · simp [attackLoop, h, hs, ih1, ih2, ih3, List.filter_cons]
            omega
      · simp [attackLoop, h, ih1, ih2, ih3, List.filter_cons]
        omega

/-! ### C8: the adversarial log -/

lemma recGet_recSet (r : Record) (f v : String) :
    recGet (recSet r f v) f = v := by
  induction r with
  | nil => simp [recSet, recGet]
  | cons kv r ih =>
      obtain ⟨k, w⟩ := kv
      by_cases hk : k = f
      · simp [recSet, recGet, hk]
      · simp [recSet, recGet, hk, ih]

/-- Counterexample to C8 as stated: on a batch whose single instance is
initially misclassified (so never attacked), the log still gains a data row
— the row count does not match the attacked-instance count. -/
theorem adv_log_per_attacked_cex :
    ¬ ((advLogLines (fun _ => [1, 0]) (fun _ => ⟨true, ["x"]⟩) "sent"
          [([("sent", "a b")], 1)]).length
        = 1 + (attackLoop (fun _ => [1, 0]) (fun _ => ⟨true, ["x"]⟩) "sent"
            [([("sent", "a b")], 1)]).attacked.length) := by
  decide

/-- C8 (amended): the log begins with the header `raw\tadv\tlabel` and
contains exactly one row per instance processed by the loop — attacked or
escaped — each row being the raw sentence, the adversarial sentence (equal
to the raw one for escaped instances), and the gold label, joined by tabs. -/
theorem adv_log_format (pf : Record → List ℚ) (atk : Record → AttackResult)
    (field : String) (data : List (Record × ℕ)) :
    advLogLines pf atk field data
      = "raw\tadv\tlabel" :: data.map (fun inst =>
          if argmaxIdx (pf inst.1) = inst.2 then
            logRow (recGet inst.1 field) (asSentence (atk inst.1).advTokens)
              inst.2
          else logRow (recGet inst.1 field) (recGet inst.1 field) inst.2) := by
  unfold advLogLines
  apply congrArg
  induction data with
  | nil => rfl
  | cons inst rest ih =>
      obtain ⟨r, lab⟩ := inst
      by_cases h : argmaxIdx (pf r) = lab
      · simp [attackLoop, h, ih, recGet_recSet]
      · simp [attackLoop, h, ih]

/-! ### C1: the transform write-back loop stops at `bsz` -/

/-- C1 fails on the code: with `ensemble_num = 2` and a one-record group,
the transform output is written back only to the first `bsz = 1` of the
`bsz * ensemble_num = 2` replicated records, so the second replica reaches
the model with the original (untransformed) field value. -/
theorem transform_writeback_stops_at_bsz :
    replicatedBatch
        { ensemble_num := 2,
          transform_fn := some (fun xs => .fresh (xs.map (fun s => s ++ "!"))) }
        [[("sent", "a")]]
      = [[("sent", "a!")], [("sent", "a")]] := by
  decide

/-! ### C10: `downsample` keeps only main fields shorter than 300 tokens -/

/-- C10: every instance returned by `downsample` has strictly fewer than 300
tokens in its main text field (`sent`, or `sent2` when the first instance
lacks `sent`); the length filter runs before the optional seeded shuffle and
the shard slice. -/
theorem downsample_length_bound (cfg : DownCfg) (data : List AInst) (x : AInst)
    (hx : x ∈ downsample cfg data) :
    (mainTokens (mainFieldIsSent data) x).length < 300 := by
  unfold downsample at hx
  have hx' : x ∈ (if cfg.data_random then
        cfg.perm.map (fun i =>
          (data.filter (fun y =>
            (mainTokens (mainFieldIsSent data) y).length < 300)).getD i {})
      else data.filter (fun y =>
        (mainTokens (mainFieldIsSent data) y).length < 300)) := by
    rcases hcfg : cfg.data_downsample with _ | n
    · rw [hcfg] at hx; exact hx
    · rw [hcfg] at hx
      exact List.mem_of_mem_drop (List.mem_of_mem_take hx)
  by_cases hrand : cfg.data_random
  · rw [if_pos hrand] at hx'
    rcases List.mem_map.mp hx' with ⟨i, _, rfl⟩
    set flt := data.filter (fun y =>
      (mainTokens (mainFieldIsSent data) y).length < 300) with hflt
    by_cases hi : i < flt.length
    · rw [List.getD_eq_getElem flt {} hi]
      have hmem : flt[i] ∈ flt := List.getElem_mem hi
      have := List.of_mem_filter hmem
      simpa using this
    · rw [List.getD_eq_default flt {} (Nat.le_of_not_lt hi)]
      cases hfs : mainFieldIsSent data <;> simp [mainTokens, hfs]
  · rw [if_neg hrand] at hx'
    have := List.of_mem_filter hx'
    simpa using this

/-- Witness for C10: a one-instance split with a short `sent` field survives
`downsample` and satisfies the bound. -/
theorem downsample_length_bound_witness :
    ({ sent := some ["good"] } : AInst)
        ∈ downsample {} [{ sent := some ["good"] }]
    ∧ (mainTokens (mainFieldIsSent [{ sent := some ["good"] }])
        { sent := some ["good"] }).length < 300 :=
  ⟨by decide,
    downsample_length_bound {} [{ sent := some ["good"] }]
      { sent := some ["good"] } (by decide)⟩

end Freq
